import Mathlib

/-!
Verification of the exercise corpus in `Microservice-CodeRunner`.

Each C++ exercise function is shallowly embedded as a Lean function over
`Int` (C++ `int`), `List Int` (`std::vector<int>`), `List Char`
(`std::string`).  Where 32-bit overflow can matter, machine addition is
modelled by `wrap32` (two's-complement wrap-around of the mathematical sum);
elsewhere C++ `int` values stay far from the width and are modelled by
unbounded `Int`.  Unbounded C++ `while` loops are modelled with an explicit
fuel parameter returning `Option` (`none` = fuel exhausted); bounded loops
become structural recursion or folds.
-/

/-- Two's-complement wrap of an integer into the 32-bit range
`[-2^31, 2^31)`, modelling overflowing C++ `int` arithmetic. -/
def wrap32 (z : Int) : Int :=
  (z + 2147483648) % 4294967296 - 2147483648

/-! ### Fibonacci variants

`src/test/exercises_cpp/easy/cpp/exercise03_fibonacci.cpp`,
`src/templates/template.cpp` and `src/template/cpp-template.cpp`. -/

/-- One iteration of the C++ loop body `c = a + b; a = b; b = c;`
on the state `(a, b)`. -/
def fibStep (p : Int × Int) : Int × Int :=
  (p.2, wrap32 (p.1 + p.2))

/-- `k` iterations of the fibonacci loop (the C++ `for (i = 2; i <= n; ++i)`
runs `n - 1` times starting from `(a, b) = (0, 1)`). -/
def fibLoop : Nat → Int × Int → Int × Int
  | 0, p => p
  | k + 1, p => fibLoop k (fibStep p)

/-- `exercise03_fibonacci.cpp`: `if (n <= 0) return 0; if (n == 1) return 1;`
then the iterative loop, returning `b`. -/
def fibonacci (n : Int) : Int :=
  if n ≤ 0 then 0
  else if n = 1 then 1
  else (fibLoop (n - 1).toNat (0, 1)).2

/-- `templates/template.cpp`: same loop but the guard is only
`if (position == 0) return 0; if (position == 1) return 1;`; for a negative
`position` the loop body never runs and the function returns `b = 1`. -/
def fibonacciTemplate (position : Int) : Int :=
  if position = 0 then 0
  else if position = 1 then 1
  else (fibLoop (position - 1).toNat (0, 1)).2

/-- Recursive helper for `template/cpp-template.cpp`:
`fib(0)=0, fib(1)=1, fib(n)=fib(n-1)+fib(n-2)` with C++ `int` addition. -/
def fibRecCT : Nat → Int
  | 0 => 0
  | 1 => 1
  | n + 2 => wrap32 (fibRecCT (n + 1) + fibRecCT n)

/-- `template/cpp-template.cpp`: throws `invalid_argument` for `n < 0`
(modelled as `none`), otherwise the recursive fibonacci. -/
def fibonacciCppTemplate (n : Int) : Option Int :=
  if n < 0 then none
  else some (fibRecCT n.toNat)

/-! ### reverseInt — `easy/cpp/exercise06_reverseInt.cpp` -/

/-- The C++ loop `while (n > 0) { rev = rev * 10 + n % 10; n /= 10; }`
on the non-negative magnitude. -/
def revLoop (n rev : Nat) : Nat :=
  if n = 0 then rev
  else revLoop (n / 10) (rev * 10 + n % 10)
termination_by n
decreasing_by exact Nat.div_lt_self (Nat.pos_of_ne_zero (by assumption)) (by omega)

/-- `reverseInt`: record the sign, take the absolute value, reverse the
decimal digits, reattach the sign. -/
def reverseInt (n : Int) : Int :=
  let sign : Int := if n < 0 then -1 else 1
  sign * (revLoop n.natAbs 0 : Int)

/-! ### isValidParentheses — `medium/cpp/M04_isValidParentheses.cpp` -/

/-- The character-processing loop of `isValidParentheses`, with the explicit
stack `stk`: openers are pushed; any other character pops (empty stack fails)
and fails exactly on a mismatched `)`/`}`/`]`; at the end the stack must be
empty. -/
def validGo : List Char → List Char → Bool
  | [], stk => stk.isEmpty
  | c :: cs, stk =>
    if c = '(' || c = '{' || c = '[' then validGo cs (c :: stk)
    else
      match stk with
      | [] => false
      | top :: rest =>
        if (c = ')' && top ≠ '(') || (c = '}' && top ≠ '{') ||
            (c = ']' && top ≠ '[') then false
        else validGo cs rest

/-- `isValidParentheses` runs the loop with an empty initial stack. -/
def isValidParentheses (s : List Char) : Bool :=
  validGo s []

/-! ### N-Queens — `hard/H05_nQueens.cpp` -/

/-- The `Solution` class: the member fields `result`, `board`, `n`
(strings modelled as `List Char`). -/
structure Solution where
  result : List (List (List Char))
  board : List (List Char)
  n : Nat

/-- `board[i][j]` (defaulting outside the board, which valid executions
never touch). -/
def boardGet (b : List (List Char)) (i j : Nat) : Char :=
  (b.getD i []).getD j '.'

/-- `board[i][j] = c`. -/
def boardSet (b : List (List Char)) (i j : Nat) (c : Char) : List (List Char) :=
  b.set i ((b.getD i []).set j c)

/-- `Solution::isSafe`: the three scanning loops (column, upper-left
diagonal, upper-right diagonal), each rendered as a bounded range scan. -/
def isSafe (st : Solution) (row col : Nat) : Bool :=
  (List.range row).all (fun i => boardGet st.board i col ≠ 'Q') &&
  (List.range (min row col)).all
    (fun t => boardGet st.board (row - 1 - t) (col - 1 - t) ≠ 'Q') &&
  (List.range (min row (st.n - col - 1))).all
    (fun t => boardGet st.board (row - 1 - t) (col + 1 + t) ≠ 'Q')

/-- The private recursive `Solution::solveNQueens(int row)`: on `row == n`
append the board to `result`; otherwise try every column, placing and
removing a queen around the recursive call.  `gas` bounds the recursion
depth (`n` suffices, since `row` increases to `n`). -/
def solveFrom : Nat → Nat → Solution → Solution
  | gas, row, st =>
    if row = st.n then { st with result := st.result ++ [st.board] }
    else
      match gas with
      | 0 => st
      | g + 1 =>
        (List.range st.n).foldl
          (fun st col =>
            if isSafe st row col then
              let st1 := { st with board := boardSet st.board row col 'Q' }
              let st2 := solveFrom g (row + 1) st1
              { st2 with board := boardSet st2.board row col '.' }
            else st) st

/-- The public `Solution::solveNQueens(int n)`: resets `n`, `board` and
`result` on the object, runs the backtracking from row 0, and returns
`result`.  The returned pair is (return value, object state after the call). -/
def solveNQueens (n : Nat) (st : Solution) :
    List (List (List Char)) × Solution :=
  let st1 : Solution :=
    { n := n, board := List.replicate n (List.replicate n '.'), result := [] }
  let st2 := solveFrom n 0 st1
  (st2.result, st2)

/-! ### Median of two sorted arrays — `hard/H03_medianOfTwoSortedArrays.cpp`

The return type `double` is modelled by `ℚ`: the only floating-point
operation is a final division of an `int` value by `2.0`, which is exact in
IEEE double precision for every 32-bit `int`, so the rational model agrees
with the C++ value. -/

/-- `std::numeric_limits<int>::min()`. -/
def INT_MIN : Int := -2147483648

/-- `std::numeric_limits<int>::max()`. -/
def INT_MAX : Int := 2147483647

/-- The binary-search `while (left <= right)` loop of
`findMedianSortedArrays`, with explicit fuel (`none` = fuel exhausted);
falling out of the loop returns `0.0` as in the source. -/
def medLoop (nums1 nums2 : List Int) (m n total half : Int) :
    Nat → Int → Int → Option ℚ
  | fuel, left, right =>
    if left ≤ right then
      match fuel with
      | 0 => none
      | f + 1 =>
        let i := left + (right - left) / 2
        let j := half - i
        let nums1Left := if i > 0 then nums1.getD (i - 1).toNat 0 else INT_MIN
        let nums1Right := if i < m then nums1.getD i.toNat 0 else INT_MAX
        let nums2Left := if j > 0 then nums2.getD (j - 1).toNat 0 else INT_MIN
        let nums2Right := if j < n then nums2.getD j.toNat 0 else INT_MAX
        if nums1Left ≤ nums2Right ∧ nums2Left ≤ nums1Right then
          if total % 2 = 1 then some ((max nums1Left nums2Left : Int) : ℚ)
          else some ((wrap32 (max nums1Left nums2Left + min nums1Right nums2Right) : ℚ) / 2)
        else if nums1Left > nums2Right then
          medLoop nums1 nums2 m n total half f left (i - 1)
        else
          medLoop nums1 nums2 m n total half f (i + 1) right
    else some 0

/-- The body of `findMedianSortedArrays` after the operand swap:
sets up `m`, `n`, `total`, `half` and runs the partition search over
`[0, m]`. -/
def findMedianAux (nums1 nums2 : List Int) (fuel : Nat) : Option ℚ :=
  let m : Int := nums1.length
  let n : Int := nums2.length
  let total := m + n
  let half := (total + 1) / 2
  medLoop nums1 nums2 m n total half fuel 0 m

/-- `findMedianSortedArrays`: first swaps the operands so the search runs
over the shorter sequence (the single self-call in the source). -/
def findMedianSortedArrays (nums1 nums2 : List Int) (fuel : Nat) : Option ℚ :=
  if nums1.length > nums2.length then findMedianAux nums2 nums1 fuel
  else findMedianAux nums1 nums2 fuel

/-! ### mergeSortedArrays — `medium/cpp/M02_mergeSortedArrays.cpp` -/

/-- The two-pointer merge loop of `mergeSortedArrays` (the main
`while (i < n1 && j < n2)` loop followed by the two drain loops), as a
recursion on the unconsumed suffixes; generic in the element type and the
comparison so the same code can be run on origin-tagged elements. -/
def mergeLoop {α : Type} (le : α → α → Bool) : List α → List α → List α
  | [], l2 => l2
  | a :: l1, [] => a :: l1
  | a :: l1, b :: l2 =>
    if le a b then a :: mergeLoop le l1 (b :: l2)
    else b :: mergeLoop le (a :: l1) l2
termination_by l1 l2 => l1.length + l2.length
decreasing_by all_goals simp +arith

/-- `mergeSortedArrays` on `int` elements, comparing with `<=` as in
`nums1[i] <= nums2[j]`. -/
def mergeSortedArrays (nums1 nums2 : List Int) : List Int :=
  mergeLoop (fun a b => decide (a ≤ b)) nums1 nums2

/-- The same merge run on elements tagged with their origin
(`0` = `nums1`, `1` = `nums2`), still comparing only values; used to state
stability. -/
def mergeTagged (nums1 nums2 : List Int) : List (Int × Nat) :=
  mergeLoop (fun a b => decide (a.1 ≤ b.1))
    (nums1.map (fun x => (x, 0))) (nums2.map (fun x => (x, 1)))

/-- The ordering asserting stability: values non-decreasing, and on equal
values the `nums1`-tagged element comes first. -/
def lexLe (a b : Int × Nat) : Prop :=
  a.1 < b.1 ∨ (a.1 = b.1 ∧ a.2 ≤ b.2)

/-! ### removeDuplicates — `medium/cpp/M06_removeDuplicates.cpp` -/

/-- The in-place compaction loop
`for (read = 1; read < nums.size(); ++read)
   if (nums[read] != nums[read-1]) nums[write++] = nums[read];`
acting on the current array, with both pointers explicit; returns the final
array together with `write_index`. -/
def rdLoop (arr : List Int) (w r : Nat) : List Int × Nat :=
  if r < arr.length then
    if arr.getD r 0 ≠ arr.getD (r - 1) 0 then
      rdLoop (arr.set w (arr.getD r 0)) (w + 1) (r + 1)
    else rdLoop arr w (r + 1)
  else (arr, w)
termination_by arr.length - r
decreasing_by all_goals simp [List.length_set]; omega

/-- `removeDuplicates`: empty input returns 0 immediately, otherwise both
pointers start at 1.  The returned pair is (vector after the call, returned
logical length). -/
def removeDuplicates (nums : List Int) : List Int × Nat :=
  if nums.isEmpty then (nums, 0)
  else rdLoop nums 1 1

/-- Specification-side recursion describing which elements the compaction
keeps: an element is kept iff it differs from its predecessor in the
original sequence (`prev` is that predecessor). -/
def keepRun (prev : Int) : List Int → List Int
  | [] => []
  | x :: xs => if x ≠ prev then x :: keepRun x xs else keepRun x xs

/-- Writing a block of values into consecutive positions starting at `w`
(the net effect of the compaction's writes). -/
def writeSeq (arr : List Int) (w : Nat) : List Int → List Int
  | [] => arr
  | x :: xs => writeSeq (arr.set w x) (w + 1) xs

/-! ### Edit distance — `hard/H06_editDistance.cpp`

The DP table is filled row by row; only the previous row is consulted, so
the table is embedded as the sequence of its rows.  Values are C++ `int`s,
bounded by the string lengths, modelled by `Int`. -/

/-- The inner column loop computing row `i` of the DP table from row
`i - 1`: the argument list is the suffix of the previous row starting at
column `j - 1` (so its head is `dp[i-1][j-1]` and the next element is
`dp[i-1][j]`), `cur` is `dp[i][j-1]`, and the branch is the source's
`word1[i-1] == word2[j-1]` test against
`min({dp[i-1][j]+1, dp[i][j-1]+1, dp[i-1][j-1]+1})`. -/
def rowGo (c1 : Char) : List Char → List Int → Int → List Int
  | c2 :: w2, p0 :: rest, cur =>
    let v := if c1 = c2 then p0
      else min (min (rest.headD 0 + 1) (cur + 1)) (p0 + 1)
    v :: rowGo c1 w2 rest v
  | _, _, _ => []

/-- The outer row loop: `prev` is row `i - 1`; each step prepends the base
column entry `dp[i][0] = i` and fills the rest of row `i`. -/
def edLoop (w2 : List Char) : List Char → List Int → Int → List Int
  | [], prev, _ => prev
  | c1 :: w1, prev, i => edLoop w2 w1 ((i : Int) :: rowGo c1 w2 prev i) (i + 1)

/-- `minDistance`: base row `dp[0][j] = j`, then one `edLoop` step per
character of `word1`; the answer is `dp[m][n]`, the last entry of the final
row. -/
def minDistance (word1 word2 : List Char) : Int :=
  (edLoop word2 word1
    ((List.range (word2.length + 1)).map Int.ofNat) 1).getLastD 0

/-! ### Dijkstra — `hard/cpp/H01_dijkstra.cpp`

The graph is `vector<vector<pair<int,int>>>`: entry `u` lists the pairs
`(v, w)` of neighbour and weight.  Node indices are modelled as `Nat`
(valid C++ executions only index with non-negative ints).  The
`priority_queue<pair<int,int>, ..., greater<...>>` is modelled as a list
from which `popMin` extracts the lexicographically least pair.  The
unbounded `while (!pq.empty())` loop carries explicit fuel. -/

/-- `numeric_limits<int>::max()`, the "infinity" sentinel of `dijkstra`. -/
def DIJ_INF : Int := 2147483647

/-- The `greater<pair<int,int>>` priority order: pop the least pair. -/
def pairLe (a b : Int × Nat) : Bool :=
  a.1 < b.1 || (a.1 = b.1 && a.2 ≤ b.2)

/-- Extract a least element (the `pq.top(); pq.pop()` pair) from the
modelled priority queue. -/
def popMin : List (Int × Nat) → Option ((Int × Nat) × List (Int × Nat))
  | [] => none
  | x :: xs =>
    match popMin xs with
    | none => some (x, [])
    | some (m, rest) => if pairLe x m then some (x, xs) else some (m, x :: rest)

/-- Dijkstra loop state: the `dist` vector and the priority queue. -/
structure DState where
  dist : List Int
  pq : List (Int × Nat)

/-- The relaxation loop `for (auto& [v, w] : graph[u])`: when
`dist[u] + w < dist[v]`, set `dist[v]` and push `(dist[v], v)`. -/
def relaxEdges (st : DState) (u : Nat) (edges : List (Nat × Int)) : DState :=
  edges.foldl
    (fun st e =>
      let nv := wrap32 (st.dist.getD u DIJ_INF + e.2)
      if nv < st.dist.getD e.1 DIJ_INF then
        { dist := st.dist.set e.1 nv, pq := (nv, e.1) :: st.pq }
      else st) st

/-- The main `while (!pq.empty())` loop: pop the least `(cost, u)`, skip it
if stale (`cost > dist[u]`), otherwise relax all edges out of `u`. -/
def dloop (g : List (List (Nat × Int))) (fuel : Nat) (st : DState) :
    Option (List Int) :=
  match popMin st.pq with
  | none => some st.dist
  | some ((cost, u), rest) =>
    match fuel with
    | 0 => none
    | f + 1 =>
      if cost > st.dist.getD u DIJ_INF then dloop g f { st with pq := rest }
      else dloop g f (relaxEdges { dist := st.dist, pq := rest } u (g.getD u []))

/-- `dijkstra`: initialise `dist` to the sentinel with `dist[start] = 0`,
seed the queue with `(0, start)`, and run the loop. -/
def dijkstra (g : List (List (Nat × Int))) (start : Nat) (fuel : Nat) :
    Option (List Int) :=
  dloop g fuel
    { dist := (List.replicate g.length DIJ_INF).set start 0
      pq := [(0, start)] }

/-- One-step adjacency of the modelled graph. -/
def adjacent (g : List (List (Nat × Int))) (u v : Nat) : Prop :=
  ∃ w, (v, w) ∈ g.getD u []

/-- Reachability from `s` along directed edges. -/
def Reachable (g : List (List (Nat × Int))) (s v : Nat) : Prop :=
  Relation.ReflTransGen (adjacent g) s v

/-! ## Theorems -/

theorem fibLoop_succ_out (k : Nat) (p : Int × Int) :
    fibLoop (k + 1) p = fibStep (fibLoop k p) := by
  induction k generalizing p with
  | zero => rfl
  | succ k ih =>
    show fibLoop (k + 1) (fibStep p) = fibStep (fibLoop (k + 1) p)
    rw [ih (fibStep p)]
    rfl

theorem fibonacci_eq_loop (n : Int) (h : 1 ≤ n) :
    fibonacci n = (fibLoop (n - 1).toNat (0, 1)).2 := by
  unfold fibonacci
  rcases eq_or_lt_of_le h with h1 | h1
  · rw [if_neg (by omega), if_pos h1.symm]
    rw [show ((n : Int) - 1).toNat = 0 by omega]
    rfl
  · rw [if_neg (by omega), if_neg (by omega)]

/-- C2: the iterative `fibonacci` of `exercise03_fibonacci.cpp` satisfies
`fibonacci 0 = 0`, `fibonacci 1 = 1`, and for every `n ≥ 2` the recurrence
`fibonacci n = fibonacci (n-1) + fibonacci (n-2)` with machine-width
(32-bit wrap-around) addition. -/
theorem fibonacci_recurrence :
    fibonacci 0 = 0 ∧ fibonacci 1 = 1 ∧
      ∀ n : Int, 2 ≤ n →
        fibonacci n = wrap32 (fibonacci (n - 1) + fibonacci (n - 2)) := by
  refine ⟨by decide, by decide, ?_⟩
  intro n hn
  have e1 := fibonacci_eq_loop n (by omega)
  have e2 := fibonacci_eq_loop (n - 1) (by omega)
  rw [show ((n : Int) - 1 - 1) = n - 2 by ring] at e2
  have hk : (n - 1).toNat = (n - 2).toNat + 1 := by omega
  rw [e1, hk, fibLoop_succ_out]
  show wrap32 ((fibLoop (n - 2).toNat (0, 1)).1 + (fibLoop (n - 2).toNat (0, 1)).2) = _
  have hfst : (fibLoop (n - 2).toNat (0, 1)).1 = fibonacci (n - 2) := by
    rcases eq_or_lt_of_le hn with h2 | h2
    · rw [show ((n : Int) - 2).toNat = 0 by omega, ← h2]
      decide
    · have e3 := fibonacci_eq_loop (n - 2) (by omega)
      rw [show ((n : Int) - 2 - 1) = n - 3 by ring] at e3
      rw [show ((n : Int) - 2).toNat = (n - 3).toNat + 1 by omega, fibLoop_succ_out]
      rw [e3]
      rfl
  rw [hfst, e2]
  ring_nf

/-- C2 witness: the recurrence instantiated at `n = 10`. -/
theorem fibonacci_recurrence_witness :
    fibonacci 10 = wrap32 (fibonacci (10 - 1) + fibonacci (10 - 2)) :=
  fibonacci_recurrence.2.2 10 (by decide)

/-- C3 counterexample: the iterative variant of `templates/template.cpp`
returns `1` (not `0`, and it cannot throw) on the negative input `-1`. -/
theorem fibonacciTemplate_neg_counterexample :
    fibonacciTemplate (-1) = 1 ∧ fibonacciTemplate (-1) ≠ 0 := by decide

/-- C3 (amended): on every negative input, `exercise03`'s fibonacci clamps
to `0`, `cpp-template.cpp`'s fibonacci throws (`none`), and
`templates/template.cpp`'s fibonacci returns `1`. -/
theorem fibonacci_negative_policy :
    ∀ n : Int, n < 0 →
      fibonacci n = 0 ∧ fibonacciCppTemplate n = none ∧
        fibonacciTemplate n = 1 := by
  intro n hn
  refine ⟨?_, ?_, ?_⟩
  · unfold fibonacci
    rw [if_pos (by omega)]
  · unfold fibonacciCppTemplate
    rw [if_pos hn]
  · unfold fibonacciTemplate
    rw [if_neg (by omega), if_neg (by omega),
      show ((n : Int) - 1).toNat = 0 by omega]
    rfl

/-- C3 witness: the amended policy at `n = -1`. -/
theorem fibonacci_negative_policy_witness :
    fibonacci (-1) = 0 ∧ fibonacciCppTemplate (-1) = none ∧
      fibonacciTemplate (-1) = 1 :=
  fibonacci_negative_policy (-1) (by decide)

/-- C8: `Solution::solveNQueens(int n)` resets all member state (`n`,
`board`, and the cleared `result` buffer) on every call, so the returned
placement list does not depend on the object's prior state, and a second
call on the same object returns the same list as the first. -/
theorem solveNQueens_stateless :
    (∀ (st st' : Solution) (n : Nat),
        (solveNQueens n st).1 = (solveNQueens n st').1) ∧
    (∀ (st : Solution) (n : Nat),
        (solveNQueens n (solveNQueens n st).2).1 = (solveNQueens n st).1) :=
  ⟨fun _ _ _ => rfl, fun _ _ => rfl⟩

/-- C9: `isValidParentheses` treats every character that is not an opener
as a closing symbol: on an empty stack it fails, otherwise it pops the most
recent opener and fails exactly on a `)`/`}`/`]` mismatched with it; in
particular the string `"(a"` is accepted. -/
theorem isValidParentheses_nonbracket :
    (∀ (c : Char) (cs : List Char),
        (c = '(' || c = '{' || c = '[') = false →
        validGo (c :: cs) [] = false) ∧
    (∀ (c : Char) (cs stk : List Char) (top : Char),
        (c = '(' || c = '{' || c = '[') = false →
        validGo (c :: cs) (top :: stk) =
          if (c = ')' && top ≠ '(') || (c = '}' && top ≠ '{') ||
              (c = ']' && top ≠ '[') then false
          else validGo cs stk) ∧
    isValidParentheses ['(', 'a'] = true := by
  refine ⟨?_, ?_, by decide⟩
  · intro c cs h
    simp only [validGo, h]
    rfl
  · intro c cs stk top h
    simp only [validGo, h]
    rfl

/-- C9 witness: the two quantified parts instantiated at `'a'` on the empty
stack and on the stack `['(']`. -/
theorem isValidParentheses_nonbracket_witness :
    validGo ['a'] [] = false ∧
      validGo ['a'] ['('] =
        if ('a' = ')' && ('(' : Char) ≠ '(') || ('a' = '}' && ('(' : Char) ≠ '{') ||
            ('a' = ']' && ('(' : Char) ≠ '[') then false
        else validGo [] [] :=
  ⟨isValidParentheses_nonbracket.1 'a' [] (by decide),
   isValidParentheses_nonbracket.2.1 'a' [] [] '(' (by decide)⟩

/-- C10: on two empty input sequences, `findMedianSortedArrays` succeeds on
the first partition (the `±infinity` sentinels), and returns
`(INT_MIN + INT_MAX) / 2.0 = -0.5` — neither `0.0` nor an error. -/
theorem findMedianSortedArrays_empty :
    ∀ fuel : Nat, 1 ≤ fuel →
      findMedianSortedArrays [] [] fuel = some ((-1 : ℚ) / 2) ∧
        findMedianSortedArrays [] [] fuel ≠ some 0 ∧
        findMedianSortedArrays [] [] fuel ≠ none := by
  intro fuel h
  obtain ⟨f, rfl⟩ : ∃ f, fuel = f + 1 := ⟨fuel - 1, by omega⟩
  have he : findMedianSortedArrays [] [] (f + 1) = some ((-1 : ℚ) / 2) := by
    simp [findMedianSortedArrays, findMedianAux, medLoop, INT_MIN, INT_MAX, wrap32]
  refine ⟨he, ?_, ?_⟩
  · rw [he]
    intro hc
    have := Option.some.inj hc
    norm_num at this
  · rw [he]
    simp

/-- C10 witness: the empty-input result with one unit of fuel. -/
theorem findMedianSortedArrays_empty_witness :
    findMedianSortedArrays [] [] 1 = some ((-1 : ℚ) / 2) ∧
      findMedianSortedArrays [] [] 1 ≠ some 0 ∧
      findMedianSortedArrays [] [] 1 ≠ none :=
  findMedianSortedArrays_empty 1 (by decide)

theorem revLoop_eq (n : Nat) :
    ∀ acc, revLoop n acc =
      Nat.ofDigits 10 (Nat.digits 10 n).reverse +
        acc * 10 ^ (Nat.digits 10 n).length := by
  induction n using Nat.strong_induction_on with
  | _ n ih =>
    intro acc
    rw [revLoop]
    by_cases h : n = 0
    · subst h
      simp [Nat.ofDigits]
    · rw [if_neg h,
        ih (n / 10) (Nat.div_lt_self (Nat.pos_of_ne_zero h) (by norm_num)),
        Nat.digits_def' (by norm_num : (1 : ℕ) < 10) (Nat.pos_of_ne_zero h),
        List.reverse_cons, Nat.ofDigits_append, Nat.ofDigits_singleton,
        List.length_reverse, List.length_cons]
      ring

theorem revLoop_digits (n : Nat) :
    revLoop n 0 = Nat.ofDigits 10 (Nat.digits 10 n).reverse := by
  rw [revLoop_eq]
  simp

theorem revNat_roundtrip (n : Nat) (h : n % 10 ≠ 0) :
    revLoop (revLoop n 0) 0 = n := by
  have hn : n ≠ 0 := by omega
  have hd : Nat.digits 10 (revLoop n 0) = (Nat.digits 10 n).reverse := by
    rw [revLoop_digits]
    apply Nat.digits_ofDigits 10 (by norm_num)
    · intro d hd
      exact Nat.digits_lt_base (by norm_num) (List.mem_reverse.mp hd)
    · intro hne
      have h' : (Nat.digits 10 n).reverse.getLast? = some (n % 10) := by
        rw [List.getLast?_reverse,
          Nat.digits_def' (by norm_num : (1 : ℕ) < 10) (Nat.pos_of_ne_zero hn)]
        rfl
      rw [List.getLast?_eq_getLast _ hne] at h'
      rw [Option.some.inj h']
      exact h
  rw [revLoop_digits, hd, List.reverse_reverse, Nat.ofDigits_digits]

/-- C4: when `x` is `0` or has no trailing zero (`x % 10 ≠ 0`) and neither
reversal overflows the 32-bit width, `reverseInt` round-trips; and the
trailing-zero boundary case behaves as documented:
`reverseInt 120 = 21`, `reverseInt 21 = 12 ≠ 120`. -/
theorem reverseInt_roundtrip :
    (∀ x : Int, (x = 0 ∨ x % 10 ≠ 0) →
        x.natAbs ≤ 2147483647 → (reverseInt x).natAbs ≤ 2147483647 →
        reverseInt (reverseInt x) = x) ∧
    reverseInt 120 = 21 ∧ reverseInt 21 = 12 ∧ reverseInt 21 ≠ 120 := by
  refine ⟨?_, by simp [reverseInt, revLoop], by simp [reverseInt, revLoop],
    by simp [reverseInt, revLoop]⟩
  intro x hx _ _
  rcases hx with h0 | hmod
  · subst h0
    simp [reverseInt, revLoop]
  · have hm : x.natAbs % 10 ≠ 0 := by omega
    by_cases hpos : 0 ≤ x
    · have hs1 : reverseInt x = ((revLoop x.natAbs 0 : Nat) : Int) := by
        simp [reverseInt, not_lt.mpr hpos]
      rw [hs1]
      have hs2 : reverseInt ((revLoop x.natAbs 0 : Nat) : Int) =
          ((revLoop (revLoop x.natAbs 0) 0 : Nat) : Int) := by
        simp [reverseInt, (by omega : ¬((revLoop x.natAbs 0 : Nat) : Int) < 0)]
      rw [hs2, revNat_roundtrip x.natAbs hm]
      omega
    · push_neg at hpos
      have hs1 : reverseInt x = -((revLoop x.natAbs 0 : Nat) : Int) := by
        simp [reverseInt, hpos]
      have hkne : revLoop x.natAbs 0 ≠ 0 := by
        intro hzero
        have hr := revNat_roundtrip x.natAbs hm
        rw [hzero] at hr
        rw [revLoop] at hr
        simp at hr
        omega
      rw [hs1]
      have hs2 : reverseInt (-((revLoop x.natAbs 0 : Nat) : Int)) =
          -((revLoop (revLoop x.natAbs 0) 0 : Nat) : Int) := by
        have hlt : -((revLoop x.natAbs 0 : Nat) : Int) < 0 := by omega
        simp [reverseInt, hlt]
      rw [hs2, revNat_roundtrip x.natAbs hm]
      omega

/-- C4 witness: the round-trip applied at `x = 123`. -/
theorem reverseInt_roundtrip_witness :
    reverseInt (reverseInt 123) = 123 :=
  reverseInt_roundtrip.1 123 (by norm_num) (by norm_num)
    (by simp [reverseInt, revLoop])

theorem mergeLoop_perm {α : Type} (le : α → α → Bool) :
    ∀ l1 l2, (mergeLoop le l1 l2).Perm (l1 ++ l2) := by
  intro l1
  induction l1 with
  | nil => intro l2; simp [mergeLoop]
  | cons a t1 ih1 =>
    intro l2
    induction l2 with
    | nil => simp [mergeLoop]
    | cons b t2 ih2 =>
      rw [mergeLoop]
      by_cases h : le a b = true
      · rw [if_pos h]
        exact (ih1 (b :: t2)).cons a
      · rw [if_neg h]
        exact ((ih2).cons b).trans List.perm_middle.symm

theorem mergeLoop_mem {α : Type} (le : α → α → Bool) {l1 l2 : List α} {y : α}
    (hy : y ∈ mergeLoop le l1 l2) : y ∈ l1 ∨ y ∈ l2 := by
  have := (mergeLoop_perm le l1 l2).mem_iff.mp hy
  simpa using this

theorem mergeLoop_pairwise {α : Type} (le : α → α → Bool) (r : α → α → Prop)
    (htrans : ∀ a b c, r a b → r b c → r a c)
    (hT : ∀ a b, le a b = true → r a b)
    (hF : ∀ a b, le a b = false → r b a) :
    ∀ l1 l2, l1.Pairwise r → l2.Pairwise r →
      (mergeLoop le l1 l2).Pairwise r := by
  intro l1
  induction l1 with
  | nil => intro l2 _ h2; simpa [mergeLoop] using h2
  | cons a t1 ih1 =>
    intro l2
    induction l2 with
    | nil => intro h1 _; simpa [mergeLoop] using h1
    | cons b t2 ih2 =>
      intro h1 h2
      rw [mergeLoop]
      rcases List.pairwise_cons.mp h1 with ⟨ha, ht1⟩
      rcases List.pairwise_cons.mp h2 with ⟨hb, ht2⟩
      by_cases h : le a b = true
      · rw [if_pos h]
        refine List.pairwise_cons.mpr ⟨?_, ih1 (b :: t2) ht1 h2⟩
        intro y hy
        rcases mergeLoop_mem le hy with hyl | hyr
        · exact ha y hyl
        · rcases List.mem_cons.mp hyr with rfl | hyt
          · exact hT a y h
          · exact htrans a b y (hT a b h) (hb y hyt)
      · rw [if_neg h]
        refine List.pairwise_cons.mpr ⟨?_, ih2 h1 ht2⟩
        intro y hy
        rcases mergeLoop_mem le hy with hyl | hyr
        · rcases List.mem_cons.mp hyl with rfl | hyt
          · exact hF y b (Bool.eq_false_iff.mpr h)
          · exact htrans b a y (hF a b (Bool.eq_false_iff.mpr h)) (ha y hyt)
        · exact hb y hyr

theorem mergeLoop_tagged_pairwise :
    ∀ t1 t2 : List (Int × Nat),
      (∀ x ∈ t1, x.2 = 0) → (∀ x ∈ t2, x.2 = 1) →
      t1.Pairwise (fun a b => a.1 ≤ b.1) →
      t2.Pairwise (fun a b => a.1 ≤ b.1) →
      (mergeLoop (fun a b => decide (a.1 ≤ b.1)) t1 t2).Pairwise lexLe := by
  intro t1
  induction t1 with
  | nil =>
    intro t2 _ h2tag _ h2
    rw [mergeLoop]
    refine List.Pairwise.imp_of_mem ?_ h2
    intro a b ha hb h
    rcases lt_or_eq_of_le h with h' | h'
    · exact Or.inl h'
    · exact Or.inr ⟨h', le_of_eq (by rw [h2tag a ha, h2tag b hb])⟩
  | cons a t1 ih1 =>
    intro t2
    induction t2 with
    | nil =>
      intro h1tag _ h1 _
      rw [mergeLoop]
      refine List.Pairwise.imp_of_mem ?_ h1
      intro x y hx hy h
      rcases lt_or_eq_of_le h with h' | h'
      · exact Or.inl h'
      · exact Or.inr ⟨h', le_of_eq (by rw [h1tag x hx, h1tag y hy])⟩
    | cons b t2 ih2 =>
      intro h1tag h2tag h1 h2
      rcases List.pairwise_cons.mp h1 with ⟨ha, ht1⟩
      rcases List.pairwise_cons.mp h2 with ⟨hb, ht2⟩
      rw [mergeLoop]
      by_cases h : a.1 ≤ b.1
      · rw [if_pos (by simpa using h)]
        refine List.pairwise_cons.mpr
          ⟨?_, ih1 (b :: t2) (fun x hx => h1tag x (List.mem_cons_of_mem a hx))
            h2tag ht1 h2⟩
        intro y hy
        have hatag : a.2 = 0 := h1tag a (List.mem_cons_self a t1)
        rcases mergeLoop_mem _ hy with hyl | hyr
        · have hv : a.1 ≤ y.1 := ha y hyl
          rcases lt_or_eq_of_le hv with h' | h'
          · exact Or.inl h'
          · exact Or.inr ⟨h',
              le_of_eq (by rw [hatag, h1tag y (List.mem_cons_of_mem a hyl)])⟩
        · have hytag : y.2 = 1 := h2tag y hyr
          have hv : a.1 ≤ y.1 := by
            rcases List.mem_cons.mp hyr with rfl | hyt
            · exact h
            · exact le_trans h (hb y hyt)
          rcases lt_or_eq_of_le hv with h' | h'
          · exact Or.inl h'
          · exact Or.inr ⟨h', by rw [hatag, hytag]; omega⟩
      · rw [if_neg (by simpa using h)]
        push_neg at h
        refine List.pairwise_cons.mpr
          ⟨?_, ih2 h1tag (fun x hx => h2tag x (List.mem_cons_of_mem b hx)) h1 ht2⟩
        intro y hy
        have hbtag : b.2 = 1 := h2tag b (List.mem_cons_self b t2)
        rcases mergeLoop_mem _ hy with hyl | hyr
        · have hv : b.1 < y.1 := by
            rcases List.mem_cons.mp hyl with rfl | hyt
            · exact h
            · exact lt_of_lt_of_le h (ha y hyt)
          exact Or.inl hv
        · have hv : b.1 ≤ y.1 := hb y hyr
          rcases lt_or_eq_of_le hv with h' | h'
          · exact Or.inl h'
          · exact Or.inr ⟨h',
              le_of_eq (by rw [hbtag, h2tag y (List.mem_cons_of_mem b hyr)])⟩

theorem mergeTagged_map_fst_aux :
    ∀ l1 l2 : List Int,
      (mergeLoop (fun a b => decide (a.1 ≤ b.1))
          (l1.map (fun x => (x, (0 : Nat)))) (l2.map (fun x => (x, (1 : Nat))))).map
        Prod.fst = mergeLoop (fun a b => decide (a ≤ b)) l1 l2 := by
  intro l1
  induction l1 with
  | nil => intro l2; simp [mergeLoop, List.map_map, Function.comp_def]
  | cons a t1 ih1 =>
    intro l2
    induction l2 with
    | nil => simp [mergeLoop, List.map_map, Function.comp_def]
    | cons b t2 ih2 =>
      simp only [List.map_cons]
      rw [mergeLoop, mergeLoop]
      by_cases h : a ≤ b
      · rw [if_pos (by simpa using h), if_pos (by simpa using h)]
        simpa using ih1 (b :: t2)
      · rw [if_neg (by simpa using h), if_neg (by simpa using h)]
        simpa using ih2

/-- C1: for sorted inputs, `mergeSortedArrays` returns a sorted permutation
of the concatenation, and the merge is stable: running the identical merge
on origin-tagged elements (`0` = `nums1`, `1` = `nums2`) yields a sequence
sorted by value with `nums1`-elements before `nums2`-elements on ties
(`lexLe`), and projecting the tags away recovers `mergeSortedArrays`. -/
theorem mergeSortedArrays_correct (nums1 nums2 : List Int)
    (h1 : nums1.Pairwise (· ≤ ·)) (h2 : nums2.Pairwise (· ≤ ·)) :
    (mergeSortedArrays nums1 nums2).Pairwise (· ≤ ·) ∧
      (mergeSortedArrays nums1 nums2).Perm (nums1 ++ nums2) ∧
      (mergeTagged nums1 nums2).Pairwise lexLe ∧
      (mergeTagged nums1 nums2).map Prod.fst = mergeSortedArrays nums1 nums2 := by
  refine ⟨?_, mergeLoop_perm _ nums1 nums2, ?_, mergeTagged_map_fst_aux nums1 nums2⟩
  · exact mergeLoop_pairwise (fun a b => decide (a ≤ b)) (fun a b => a ≤ b)
      (fun a b c hab hbc => le_trans hab hbc)
      (fun a b h => of_decide_eq_true h)
      (fun a b h => le_of_not_le (of_decide_eq_false h))
      nums1 nums2 h1 h2
  · exact mergeLoop_tagged_pairwise _ _
      (by intro x hx; rcases List.mem_map.mp hx with ⟨v, _, rfl⟩; rfl)
      (by intro x hx; rcases List.mem_map.mp hx with ⟨v, _, rfl⟩; rfl)
      (by rw [List.pairwise_map]; exact h1)
      (by rw [List.pairwise_map]; exact h2)

/-- C1 witness: the merge correctness applied at `[1, 2]` and `[1, 3]`. -/
theorem mergeSortedArrays_correct_witness :
    (mergeSortedArrays [1, 2] [1, 3]).Pairwise (· ≤ ·) ∧
      (mergeSortedArrays [1, 2] [1, 3]).Perm ([1, 2] ++ [1, 3]) ∧
      (mergeTagged [1, 2] [1, 3]).Pairwise lexLe ∧
      (mergeTagged [1, 2] [1, 3]).map Prod.fst = mergeSortedArrays [1, 2] [1, 3] :=
  mergeSortedArrays_correct [1, 2] [1, 3] (by decide) (by decide)

theorem getLastD_eq_getD_pred (l : List Int) (d : Int) :
    l.getLastD d = l.getD (l.length - 1) d := by
  rw [List.getLastD_eq_getLast?, List.getLast?_eq_getElem?, List.getD_eq_getElem?_getD]

theorem baseRow_getLastD (n : Nat) :
    (((List.range (n + 1)).map Int.ofNat).getLastD 0) = (n : Int) := by
  rw [List.range_succ, List.map_append]
  simp

theorem rowGo_length (c1 : Char) :
    ∀ (w2 : List Char) (prev : List Int) (cur : Int),
      w2.length + 1 ≤ prev.length → (rowGo c1 w2 prev cur).length = w2.length := by
  intro w2
  induction w2 with
  | nil => intro prev cur _; rfl
  | cons c2 w2 ih =>
    intro prev cur hlen
    cases prev with
    | nil => simp at hlen
    | cons p0 rest =>
      simp only [rowGo, List.length_cons]
      rw [ih rest _ (by simpa using hlen)]

theorem rowGo_getD_diag (c1 : Char) :
    ∀ (t : Nat) (w2 : List Char) (prev : List Int) (cur : Int),
      w2[t]? = some c1 → t + 1 ≤ prev.length →
      (rowGo c1 w2 prev cur).getD t 0 = prev.getD t 0 := by
  intro t
  induction t with
  | zero =>
    intro w2 prev cur hw hp
    cases w2 with
    | nil => simp at hw
    | cons c2 w2 =>
      cases prev with
      | nil => simp at hp
      | cons p0 rest =>
        have hc : c1 = c2 := by
          have h' : c2 = c1 := by simpa using hw
          exact h'.symm
        subst hc
        simp [rowGo]
  | succ t ih =>
    intro w2 prev cur hw hp
    cases w2 with
    | nil => simp at hw
    | cons c2 w2 =>
      cases prev with
      | nil => simp at hp
      | cons p0 rest =>
        simp only [rowGo, List.getD_cons_succ]
        exact ih w2 rest _ (by simpa using hw) (by simpa using hp)

theorem edLoop_diag (s : List Char) :
    ∀ (d k : Nat) (prev : List Int),
      s.length - k = d → k ≤ s.length →
      prev.length = s.length + 1 → prev.getD k 0 = 0 →
      (edLoop s (s.drop k) prev ((k : Int) + 1)).getLastD 0 = 0 := by
  intro d
  induction d with
  | zero =>
    intro k prev hd hk hlen hdiag
    have hks : k = s.length := by omega
    subst hks
    rw [List.drop_length]
    show prev.getLastD 0 = 0
    rw [getLastD_eq_getD_pred, hlen]
    simpa using hdiag
  | succ d ih =>
    intro k prev hd hk hlen hdiag
    have hks : k < s.length := by omega
    rw [List.drop_eq_getElem_cons hks]
    simp only [edLoop]
    rw [show ((k : Int) + 1 + 1) = (((k + 1 : Nat) : Int) + 1) by push_cast; ring]
    refine ih (k + 1) _ ?_ ?_ ?_ ?_
    · omega
    · omega
    · rw [List.length_cons, rowGo_length _ _ _ _ (by omega)]
    · rw [List.getD_cons_succ,
        rowGo_getD_diag _ _ _ _ _ (List.getElem?_eq_getElem hks) (by omega)]
      exact hdiag

/-- C5: the 3-way insert/delete/substitute DP `minDistance` (base row and
column equal to the index) satisfies `minDistance "" s = length s` and
`minDistance s s = 0` for every string `s`. -/
theorem minDistance_spec :
    ∀ s : List Char,
      minDistance [] s = (s.length : Int) ∧ minDistance s s = 0 := by
  intro s
  constructor
  · unfold minDistance
    show (((List.range (s.length + 1)).map Int.ofNat).getLastD 0) = _
    exact baseRow_getLastD s.length
  · unfold minDistance
    have hbase :
        (((List.range (s.length + 1)).map Int.ofNat).getD 0 0) = 0 := by
      rw [List.getD_eq_getElem?_getD, List.getElem?_map,
        List.getElem?_range (by omega)]
      rfl
    have h := edLoop_diag s s.length 0
      ((List.range (s.length + 1)).map Int.ofNat)
      (by omega) (by omega) (by simp) hbase
    simpa using h

theorem getD_set_ne (l : List Int) (i j : Nat) (a d : Int) (h : i ≠ j) :
    (l.set i a).getD j d = l.getD j d := by
  rw [List.getD_eq_getElem?_getD, List.getD_eq_getElem?_getD,
    List.getElem?_set_ne h]

theorem getD_set_self (l : List Int) (i : Nat) (a d : Int) (h : i < l.length) :
    (l.set i a).getD i d = a := by
  rw [List.getD_eq_getElem?_getD, List.getElem?_set_self h]
  rfl

theorem writeSeq_length :
    ∀ (ks arr : List Int) (w : Nat), (writeSeq arr w ks).length = arr.length := by
  intro ks
  induction ks with
  | nil => intro arr w; rfl
  | cons x xs ih =>
    intro arr w
    show (writeSeq (arr.set w x) (w + 1) xs).length = _
    rw [ih, List.length_set]

theorem writeSeq_getD_ge :
    ∀ (ks arr : List Int) (w t : Nat) (d : Int), w + ks.length ≤ t →
      (writeSeq arr w ks).getD t d = arr.getD t d := by
  intro ks
  induction ks with
  | nil => intro arr w t d _; rfl
  | cons x xs ih =>
    intro arr w t d ht
    show (writeSeq (arr.set w x) (w + 1) xs).getD t d = _
    rw [ih _ _ _ _ (by simp at ht; omega),
      getD_set_ne _ _ _ _ _ (by simp at ht; omega)]

theorem take_succ_set :
    ∀ (arr : List Int) (w : Nat) (x : Int), w < arr.length →
      (arr.set w x).take (w + 1) = arr.take w ++ [x] := by
  intro arr
  induction arr with
  | nil => intro w x h; simp at h
  | cons a arr ih =>
    intro w x h
    cases w with
    | zero => rfl
    | succ w =>
      show a :: (arr.set w x).take (w + 1) = a :: arr.take w ++ [x]
      rw [ih w x (by simpa using h)]
      rfl

theorem writeSeq_take :
    ∀ (ks arr : List Int) (w : Nat), w + ks.length ≤ arr.length →
      (writeSeq arr w ks).take (w + ks.length) = arr.take w ++ ks := by
  intro ks
  induction ks with
  | nil => intro arr w _; simp [writeSeq]
  | cons x xs ih =>
    intro arr w hlen
    show (writeSeq (arr.set w x) (w + 1) xs).take (w + (xs.length + 1)) =
      arr.take w ++ x :: xs
    rw [show w + (xs.length + 1) = (w + 1) + xs.length by omega,
      ih (arr.set w x) (w + 1) (by rw [List.length_set]; simp at hlen; omega),
      take_succ_set arr w x (by simp at hlen; omega)]
    simp

theorem keepRun_length_le :
    ∀ (l : List Int) (prev : Int), (keepRun prev l).length ≤ l.length := by
  intro l
  induction l with
  | nil => intro prev; simp [keepRun]
  | cons x xs ih =>
    intro prev
    rw [keepRun]
    by_cases h : x ≠ prev
    · rw [if_pos h, List.length_cons, List.length_cons]
      exact Nat.succ_le_succ (ih x)
    · rw [if_neg h, List.length_cons]
      exact Nat.le_succ_of_le (ih x)

theorem keepRun_subset :
    ∀ (l : List Int) (prev y : Int), y ∈ keepRun prev l → y ∈ l := by
  intro l
  induction l with
  | nil => intro prev y h; simp [keepRun] at h
  | cons x xs ih =>
    intro prev y h
    rw [keepRun] at h
    by_cases hx : x ≠ prev
    · rw [if_pos hx] at h
      rcases List.mem_cons.mp h with rfl | h'
      · exact List.mem_cons_self _ _
      · exact List.mem_cons_of_mem _ (ih x y h')
    · rw [if_neg hx] at h
      exact List.mem_cons_of_mem _ (ih x y h)

theorem keepRun_sorted :
    ∀ (l : List Int) (prev : Int), l.Pairwise (· ≤ ·) →
      (∀ y ∈ l, prev ≤ y) →
      (keepRun prev l).Pairwise (· < ·) ∧ ∀ y ∈ keepRun prev l, prev < y := by
  intro l
  induction l with
  | nil => intro prev _ _; exact ⟨List.Pairwise.nil, by simp [keepRun]⟩
  | cons x xs ih =>
    intro prev hp hall
    rcases List.pairwise_cons.mp hp with ⟨hx, hxs⟩
    have hih := ih x hxs hx
    rw [keepRun]
    by_cases hxp : x ≠ prev
    · rw [if_pos hxp]
      have hplt : prev < x :=
        lt_of_le_of_ne (hall x (List.mem_cons_self _ _)) (Ne.symm hxp)
      refine ⟨List.pairwise_cons.mpr ⟨hih.2, hih.1⟩, ?_⟩
      intro y hy
      rcases List.mem_cons.mp hy with rfl | hy'
      · exact hplt
      · exact lt_trans hplt (hih.2 y hy')
    · rw [if_neg hxp]
      push_neg at hxp
      subst hxp
      exact hih

theorem keepRun_mem_of_mem :
    ∀ (l : List Int) (prev y : Int), y ∈ l →
      y = prev ∨ y ∈ keepRun prev l := by
  intro l
  induction l with
  | nil => intro prev y h; simp at h
  | cons x xs ih =>
    intro prev y h
    rw [keepRun]
    by_cases hxp : x ≠ prev
    · rw [if_pos hxp]
      rcases List.mem_cons.mp h with rfl | h'
      · exact Or.inr (List.mem_cons_self _ _)
      · rcases ih x y h' with rfl | h''
        · exact Or.inr (List.mem_cons_self _ _)
        · exact Or.inr (List.mem_cons_of_mem _ h'')
    · rw [if_neg hxp]
      push_neg at hxp
      rcases List.mem_cons.mp h with rfl | h'
      · exact Or.inl hxp
      · rcases ih x y h' with rfl | h''
        · exact Or.inl hxp
        · exact Or.inr h''

theorem rdLoop_eq (nums : List Int) :
    ∀ (d r w : Nat) (arr : List Int),
      nums.length - r = d →
      arr.length = nums.length → 1 ≤ w → w ≤ r →
      (∀ t, w ≤ t → arr.getD t 0 = nums.getD t 0) →
      arr.getD (w - 1) 0 = nums.getD (r - 1) 0 →
      rdLoop arr w r =
        (writeSeq arr w (keepRun (nums.getD (r - 1) 0) (nums.drop r)),
          w + (keepRun (nums.getD (r - 1) 0) (nums.drop r)).length) := by
  intro d
  induction d with
  | zero =>
    intro r w arr hd hlen hw hwr hA hB
    have hr : ¬ r < arr.length := by omega
    rw [rdLoop, if_neg hr, List.drop_eq_nil_of_le (by omega)]
    simp [keepRun, writeSeq]
  | succ d ih =>
    intro r w arr hd hlen hw hwr hA hB
    have hrn : r < nums.length := by omega
    have hr : r < arr.length := by omega
    have hc : arr.getD r 0 = nums.getD r 0 := hA r hwr
    have hp : arr.getD (r - 1) 0 = nums.getD (r - 1) 0 := by
      by_cases hw1 : w ≤ r - 1
      · exact hA (r - 1) hw1
      · have hwr' : w = r := by omega
        subst hwr'
        exact hB
    have hdrop : nums.drop r = nums.getD r 0 :: nums.drop (r + 1) := by
      rw [List.drop_eq_getElem_cons hrn, List.getD_eq_getElem?_getD,
        List.getElem?_eq_getElem hrn]
      rfl
    rw [rdLoop, if_pos hr, hc, hp, hdrop]
    by_cases hne : nums.getD r 0 ≠ nums.getD (r - 1) 0
    · rw [if_pos hne]
      rw [keepRun, if_pos hne]
      rw [ih (r + 1) (w + 1) (arr.set w (nums.getD r 0)) (by omega)
        (by rw [List.length_set]; exact hlen) (by omega) (by omega)
        (fun t ht => by
          rw [getD_set_ne _ _ _ _ _ (by omega)]
          exact hA t (by omega))
        (by
          show (arr.set w (nums.getD r 0)).getD (w + 1 - 1) 0 = _
          rw [show w + 1 - 1 = w from rfl,
            getD_set_self _ _ _ _ (by omega),
            show r + 1 - 1 = r from rfl])]
      show (writeSeq (arr.set w (nums.getD r 0)) (w + 1)
          (keepRun (nums.getD (r + 1 - 1) 0) (nums.drop (r + 1))),
        (w + 1) + (keepRun (nums.getD (r + 1 - 1) 0) (nums.drop (r + 1))).length) = _
      rw [show r + 1 - 1 = r from rfl]
      show _ = (writeSeq arr w
          (nums.getD r 0 :: keepRun (nums.getD r 0) (nums.drop (r + 1))), _)
      simp only [Prod.mk.injEq, List.length_cons]
      exact ⟨rfl, by omega⟩
    · rw [if_neg hne]
      push_neg at hne
      rw [keepRun, if_neg (by simpa using hne)]
      rw [ih (r + 1) w arr (by omega) hlen hw (by omega) hA
        (by
          rw [hB, show r + 1 - 1 = r from rfl, hne])]
      rw [show r + 1 - 1 = r from rfl]

/-- C7: on a sorted vector, `removeDuplicates` returns the number `k` of
distinct values; afterwards the first `k` elements are exactly the distinct
values in strictly increasing order, the vector's size is unchanged, and
every element at an index `≥ k` is unchanged. -/
theorem removeDuplicates_spec (nums : List Int) (hs : nums.Pairwise (· ≤ ·)) :
    (removeDuplicates nums).2 = nums.toFinset.card ∧
      ((removeDuplicates nums).1.take (removeDuplicates nums).2).Pairwise (· < ·) ∧
      (∀ x, x ∈ (removeDuplicates nums).1.take (removeDuplicates nums).2 ↔
        x ∈ nums) ∧
      (removeDuplicates nums).1.length = nums.length ∧
      (∀ t, (removeDuplicates nums).2 ≤ t →
        (removeDuplicates nums).1.getD t 0 = nums.getD t 0) := by
  cases nums with
  | nil =>
    refine ⟨by simp [removeDuplicates], ?_, ?_, ?_, ?_⟩ <;>
      simp [removeDuplicates]
  | cons h t =>
    rcases List.pairwise_cons.mp hs with ⟨hall, ht⟩
    have hbridge := rdLoop_eq (h :: t) ((h :: t).length - 1) 1 1 (h :: t)
      rfl rfl (le_refl 1) (le_refl 1) (fun _ _ => rfl) rfl
    rw [show ((1 : Nat) - 1) = 0 from rfl, List.getD_cons_zero,
      show (h :: t).drop 1 = t from rfl] at hbridge
    have hmain : removeDuplicates (h :: t) =
        (writeSeq (h :: t) 1 (keepRun h t), 1 + (keepRun h t).length) := by
      rw [removeDuplicates, if_neg (by simp)]
      exact hbridge
    have hklen : (keepRun h t).length ≤ t.length := keepRun_length_le t h
    have hkb : 1 + (keepRun h t).length ≤ (h :: t).length := by
      rw [List.length_cons]; omega
    have htake : (writeSeq (h :: t) 1 (keepRun h t)).take
        (1 + (keepRun h t).length) = h :: keepRun h t := by
      rw [writeSeq_take _ _ _ hkb]
      rfl
    have hks := keepRun_sorted t h ht hall
    have hfull_sorted : (h :: keepRun h t).Pairwise (· < ·) :=
      List.pairwise_cons.mpr ⟨hks.2, hks.1⟩
    have hfull_mem : ∀ x, x ∈ h :: keepRun h t ↔ x ∈ h :: t := by
      intro x
      constructor
      · intro hx
        rcases List.mem_cons.mp hx with rfl | hx'
        · exact List.mem_cons_self _ _
        · exact List.mem_cons_of_mem _ (keepRun_subset t h x hx')
      · intro hx
        rcases List.mem_cons.mp hx with rfl | hx'
        · exact List.mem_cons_self _ _
        · rcases keepRun_mem_of_mem t h x hx' with rfl | hx''
          · exact List.mem_cons_self _ _
          · exact List.mem_cons_of_mem _ hx''
    have hnodup : (h :: keepRun h t).Nodup :=
      hfull_sorted.imp (fun hlt => ne_of_lt hlt)
    have hfinset : (h :: keepRun h t).toFinset = (h :: t).toFinset := by
      apply Finset.ext
      intro x
      rw [List.mem_toFinset, List.mem_toFinset]
      exact hfull_mem x
    have hcard : (h :: t).toFinset.card = 1 + (keepRun h t).length := by
      rw [← hfinset, List.toFinset_card_of_nodup hnodup, List.length_cons]
      omega
    refine ⟨?_, ?_, ?_, ?_, ?_⟩
    · rw [hmain, hcard]
    · rw [hmain]
      show ((writeSeq (h :: t) 1 (keepRun h t)).take
        (1 + (keepRun h t).length)).Pairwise (· < ·)
      rw [htake]
      exact hfull_sorted
    · intro x
      rw [hmain]
      show x ∈ (writeSeq (h :: t) 1 (keepRun h t)).take
        (1 + (keepRun h t).length) ↔ _
      rw [htake]
      exact hfull_mem x
    · rw [hmain]
      exact writeSeq_length _ _ _
    · intro u hu
      rw [hmain] at hu ⊢
      exact writeSeq_getD_ge _ _ _ _ _ hu

/-- C7 witness: the specification applied to the sorted vector `[1, 1, 2]`. -/
theorem removeDuplicates_spec_witness :
    (removeDuplicates [1, 1, 2]).2 = ([1, 1, 2] : List Int).toFinset.card ∧
      ((removeDuplicates [1, 1, 2]).1.take
        (removeDuplicates [1, 1, 2]).2).Pairwise (· < ·) ∧
      (∀ x, x ∈ (removeDuplicates [1, 1, 2]).1.take
        (removeDuplicates [1, 1, 2]).2 ↔ x ∈ ([1, 1, 2] : List Int)) ∧
      (removeDuplicates [1, 1, 2]).1.length = ([1, 1, 2] : List Int).length ∧
      (∀ t, (removeDuplicates [1, 1, 2]).2 ≤ t →
        (removeDuplicates [1, 1, 2]).1.getD t 0 =
          ([1, 1, 2] : List Int).getD t 0) :=
  removeDuplicates_spec [1, 1, 2] (by decide)

theorem popMin_mem :
    ∀ (l : List (Int × Nat)) (m : Int × Nat) (rest : List (Int × Nat)),
      popMin l = some (m, rest) → m ∈ l := by
  intro l
  induction l with
  | nil => intro m rest h; simp [popMin] at h
  | cons x xs ih =>
    intro m rest h
    rw [popMin] at h
    rcases hpx : popMin xs with _ | ⟨m', rest'⟩ <;> rw [hpx] at h <;>
      dsimp only at h
    · simp at h
      rw [← h.1]
      exact List.mem_cons_self _ _
    · by_cases hle : pairLe x m' = true
      · rw [if_pos hle] at h
        simp at h
        rw [← h.1]
        exact List.mem_cons_self _ _
      · rw [if_neg hle] at h
        simp at h
        exact List.mem_cons_of_mem _ (h.1 ▸ ih m' rest' hpx)

theorem popMin_rest_mem :
    ∀ (l : List (Int × Nat)) (m : Int × Nat) (rest : List (Int × Nat)),
      popMin l = some (m, rest) → ∀ y ∈ rest, y ∈ l := by
  intro l
  induction l with
  | nil => intro m rest h; simp [popMin] at h
  | cons x xs ih =>
    intro m rest h y hy
    rw [popMin] at h
    rcases hpx : popMin xs with _ | ⟨m', rest'⟩ <;> rw [hpx] at h <;>
      dsimp only at h
    · simp at h
      rw [h.2] at hy
      simp at hy
    · by_cases hle : pairLe x m' = true
      · rw [if_pos hle] at h
        simp at h
        rw [← h.2] at hy
        exact List.mem_cons_of_mem _ hy
      · rw [if_neg hle] at h
        simp at h
        rw [← h.2] at hy
        rcases List.mem_cons.mp hy with rfl | hy'
        · exact List.mem_cons_self _ _
        · exact List.mem_cons_of_mem _ (ih m' rest' hpx y hy')

theorem relaxEdges_inv (g : List (List (Nat × Int))) (s u : Nat) :
    ∀ (edges : List (Nat × Int)) (st : DState),
      (∀ e ∈ edges, Reachable g s e.1) →
      (∀ v, st.dist.getD v DIJ_INF ≠ DIJ_INF → Reachable g s v) →
      (∀ p ∈ st.pq, Reachable g s p.2) →
      (∀ v, (relaxEdges st u edges).dist.getD v DIJ_INF ≠ DIJ_INF →
          Reachable g s v) ∧
        (∀ p ∈ (relaxEdges st u edges).pq, Reachable g s p.2) := by
  intro edges
  induction edges with
  | nil => intro st _ hdist hpq; exact ⟨hdist, hpq⟩
  | cons e es ih =>
    intro st hedges hdist hpq
    have hstep : relaxEdges st u (e :: es) =
        relaxEdges
          (let nv := wrap32 (st.dist.getD u DIJ_INF + e.2)
            if nv < st.dist.getD e.1 DIJ_INF then
              { dist := st.dist.set e.1 nv, pq := (nv, e.1) :: st.pq }
            else st) u es := by
      rw [relaxEdges, relaxEdges, List.foldl_cons]
    rw [hstep]
    have hes : ∀ e' ∈ es, Reachable g s e'.1 :=
      fun e' he' => hedges e' (List.mem_cons_of_mem e he')
    by_cases hupd :
        wrap32 (st.dist.getD u DIJ_INF + e.2) < st.dist.getD e.1 DIJ_INF
    · rw [if_pos hupd]
      refine ih _ hes ?_ ?_
      · intro v hv
        by_cases hve : v = e.1
        · subst hve
          exact hedges e (List.mem_cons_self e es)
        · rw [getD_set_ne _ _ _ _ _ (fun hh => hve hh.symm)] at hv
          exact hdist v hv
      · intro p hp
        rcases List.mem_cons.mp hp with rfl | hp'
        · exact hedges e (List.mem_cons_self e es)
        · exact hpq p hp'
    · rw [if_neg hupd]
      exact ih st hes hdist hpq

theorem dloop_inv (g : List (List (Nat × Int))) (s : Nat) :
    ∀ (fuel : Nat) (st : DState) (d : List Int),
      (∀ v, st.dist.getD v DIJ_INF ≠ DIJ_INF → Reachable g s v) →
      (∀ p ∈ st.pq, Reachable g s p.2) →
      dloop g fuel st = some d →
      ∀ v, d.getD v DIJ_INF ≠ DIJ_INF → Reachable g s v := by
  intro fuel
  induction fuel with
  | zero =>
    intro st d hdist hpq hrun
    rw [dloop] at hrun
    rcases hpop : popMin st.pq with _ | ⟨⟨cost, u⟩, rest⟩
    · rw [hpop] at hrun
      simp at hrun
      rw [← hrun]
      exact hdist
    · rw [hpop] at hrun
      simp at hrun
  | succ f ih =>
    intro st d hdist hpq hrun
    rw [dloop] at hrun
    rcases hpop : popMin st.pq with _ | ⟨⟨cost, u⟩, rest⟩
    · rw [hpop] at hrun
      simp at hrun
      rw [← hrun]
      exact hdist
    · rw [hpop] at hrun
      simp only at hrun
      have hrest : ∀ p ∈ rest, Reachable g s p.2 :=
        fun p hp => hpq p (popMin_rest_mem st.pq _ rest hpop p hp)
      by_cases hstale : cost > st.dist.getD u DIJ_INF
      · rw [if_pos hstale] at hrun
        exact ih { st with pq := rest } d hdist hrest hrun
      · rw [if_neg hstale] at hrun
        have hu : Reachable g s u :=
          hpq (cost, u) (popMin_mem st.pq _ rest hpop)
        have hedges : ∀ e ∈ g.getD u [], Reachable g s e.1 := by
          intro e he
          exact Relation.ReflTransGen.tail hu ⟨e.2, by simpa using he⟩
        have hinv := relaxEdges_inv g s u (g.getD u [])
          { dist := st.dist, pq := rest } hedges hdist hrest
        exact ih _ d hinv.1 hinv.2 hrun

theorem getD_replicate_self (n v : Nat) (c : Int) :
    (List.replicate n c).getD v c = c := by
  rw [List.getD_eq_getElem?_getD, List.getElem?_replicate]
  by_cases h : v < n
  · rw [if_pos h]
    rfl
  · rw [if_neg h]
    rfl

/-- C6: `dijkstra` on the one-node, edge-free graph returns the distance
vector `[0]`; and on any graph with non-negative weights and a valid start
node, every node unreachable from the start keeps the
`numeric_limits<int>::max()` sentinel in the returned vector. -/
theorem dijkstra_spec :
    (∀ fuel : Nat, 1 ≤ fuel → dijkstra [[]] 0 fuel = some [0]) ∧
      (∀ (g : List (List (Nat × Int))) (s : Nat) (fuel : Nat) (d : List Int),
        (∀ l ∈ g, ∀ e ∈ l, 0 ≤ e.2) → s < g.length →
        dijkstra g s fuel = some d →
        ∀ v, ¬ Reachable g s v → d.getD v DIJ_INF = DIJ_INF) := by
  constructor
  · intro fuel h
    obtain ⟨f, rfl⟩ : ∃ f, fuel = f + 1 := ⟨fuel - 1, by omega⟩
    simp [dijkstra, dloop, popMin, relaxEdges, pairLe]
  · intro g s fuel d _ hs hrun v hnr
    by_contra hne
    apply hnr
    unfold dijkstra at hrun
    refine dloop_inv g s fuel _ d ?_ ?_ hrun v hne
    · intro u hu
      by_cases hus : u = s
      · subst hus
        exact Relation.ReflTransGen.refl
      · exfalso
        apply hu
        show ((List.replicate g.length DIJ_INF).set s 0).getD u DIJ_INF = DIJ_INF
        rw [getD_set_ne _ _ _ _ _ (fun hh => hus hh.symm),
          getD_replicate_self]
    · intro p hp
      rcases List.mem_cons.mp hp with rfl | hp'
      · exact Relation.ReflTransGen.refl
      · simp at hp'

theorem not_reachable_pair : ¬ Reachable [[], []] 0 1 := by
  intro h
  rcases Relation.ReflTransGen.cases_head h with h01 | ⟨c, hadj, _⟩
  · exact absurd h01 (by decide)
  · rcases hadj with ⟨w, hw⟩
    simp [List.getD] at hw

/-- C6 witness: the single-node graph with fuel 1, and the concrete
two-node edge-free graph where node 1 is unreachable and keeps the
sentinel. -/
theorem dijkstra_spec_witness :
    dijkstra [[]] 0 1 = some [0] ∧
      ([0, 2147483647] : List Int).getD 1 DIJ_INF = DIJ_INF :=
  ⟨dijkstra_spec.1 1 (by decide),
   dijkstra_spec.2 [[], []] 0 1 [0, 2147483647] (by decide) (by decide)
     (by decide) 1 not_reachable_pair⟩
